import Mathlib

/-!
Verification of the `pm-tool` batch git-repository manager (`src/main.rs`).

The tool is a thin orchestration layer: it scans a directory tree for git
repositories, records their `origin` remotes in a JSON manifest, re-clones
them from that manifest, greps across them, and pulls each one.  The
embedding below translates each Rust function into a Lean function.  Pure
string manipulation (`parse_repo_path`) becomes a pure Lean function on
strings (represented through `List Char`, matching Rust's `char`-level
`split`/`strip_suffix` semantics for the ASCII delimiters involved).
Filesystem and subprocess effects are made explicit: each workflow takes an
environment record describing the outcomes the operating system would give
(does a path exist, does a spawned command start, what a command prints) and
returns the ordered trace of external actions it performs together with its
`Result` value.  `?`-propagation of errors becomes `Except String`.
-/

/-! ## Character-list string primitives

Rust's `str::split(c)`, `strip_suffix`, `starts_with`, `trim` and
`Vec::join` are modelled on `List Char`.  For ASCII separators and suffixes
these agree with Rust's byte-level behaviour on arbitrary UTF-8 input.
-/

/-- Rust `str::split(c)`: split at every occurrence of `c`; `""` gives `[""]`,
separators at the ends give empty segments. -/
def splitOnChar (c : Char) : List Char → List (List Char)
  | [] => [[]]
  | x :: xs =>
    if x = c then
      [] :: splitOnChar c xs
    else
      match splitOnChar c xs with
      | [] => [[x]]
      | y :: ys => (x :: y) :: ys

/-- Rust `Vec::join(sep)` for a one-character separator. -/
def joinWithChar (c : Char) : List (List Char) → List Char
  | [] => []
  | [a] => a
  | a :: rest => a ++ c :: joinWithChar c rest

/-- Rust `str::strip_suffix`: `some` of the string without the suffix when
the suffix is present, `none` otherwise. -/
def stripSuffixL (suf l : List Char) : Option (List Char) :=
  if l.length < suf.length then none
  else if l.drop (l.length - suf.length) = suf then
    some (l.take (l.length - suf.length))
  else none

/-- Rust `str::starts_with`. -/
def startsWithB (s pre : String) : Bool :=
  pre.toList.isPrefixOf s.toList

/-- Rust `str::ends_with`. -/
def endsWithB (s suf : String) : Bool :=
  suf.toList.isSuffixOf s.toList

theorem splitOnChar_ne_nil (c : Char) (l : List Char) : splitOnChar c l ≠ [] := by
  cases l with
  | nil => simp [splitOnChar]
  | cons x xs =>
    simp only [splitOnChar]
    split
    · simp
    · cases h : splitOnChar c xs <;> simp

theorem splitOnChar_of_not_mem {c : Char} {l : List Char} (h : c ∉ l) :
    splitOnChar c l = [l] := by
  induction l with
  | nil => rfl
  | cons x xs ih =>
    simp only [List.mem_cons, not_or] at h
    rw [splitOnChar, if_neg (fun hx => h.1 hx.symm), ih h.2]

theorem splitOnChar_append_cons {c : Char} {a : List Char} (h : c ∉ a)
    (rest : List Char) :
    splitOnChar c (a ++ c :: rest) = a :: splitOnChar c rest := by
  induction a with
  | nil => simp [splitOnChar]
  | cons x xs ih =>
    simp only [List.mem_cons, not_or] at h
    rw [List.cons_append, splitOnChar, if_neg (fun hx => h.1 hx.symm), ih h.2]

theorem joinWithChar_splitOnChar (c : Char) (l : List Char) :
    joinWithChar c (splitOnChar c l) = l := by
  induction l with
  | nil => rfl
  | cons x xs ih =>
    simp only [splitOnChar]
    split
    · rename_i hx
      subst hx
      cases hsp : splitOnChar x xs with
      | nil => exact absurd hsp (splitOnChar_ne_nil x xs)
      | cons y ys =>
        rw [hsp] at ih
        simp only [joinWithChar]
        cases ys with
        | nil => simp_all [joinWithChar]
        | cons z zs => simp_all [joinWithChar]
    · cases hsp : splitOnChar c xs with
      | nil => exact absurd hsp (splitOnChar_ne_nil c xs)
      | cons y ys =>
        rw [hsp] at ih
        cases ys with
        | nil => simp_all [joinWithChar]
        | cons z zs => simp_all [joinWithChar]

/-- Dropping leading segments of a split and rejoining yields a suffix of the
original string (used for the HTTP branch of the resolver). -/
theorem joinWithChar_drop_suffix (c : Char) (l : List Char) (n : Nat) :
    joinWithChar c (List.drop n (splitOnChar c l)) <:+ l := by
  induction l generalizing n with
  | nil =>
    cases n with
    | zero => simp [splitOnChar, joinWithChar]
    | succ m => simp [splitOnChar, joinWithChar]
  | cons x xs ih =>
    cases n with
    | zero =>
      rw [List.drop_zero, joinWithChar_splitOnChar]
    | succ m =>
      simp only [splitOnChar]
      split
      · rename_i hx
        subst hx
        simp only [List.drop_succ_cons]
        exact (ih m).trans (List.suffix_cons x xs)
      · cases hsp : splitOnChar c xs with
        | nil => exact absurd hsp (splitOnChar_ne_nil c xs)
        | cons y ys =>
          simp only [List.drop_succ_cons]
          have := ih (m + 1)
          rw [hsp, List.drop_succ_cons] at this
          exact this.trans (List.suffix_cons x xs)

theorem stripSuffixL_eq_some_iff (suf l p : List Char) :
    stripSuffixL suf l = some p ↔ l = p ++ suf := by
  constructor
  · intro h
    simp only [stripSuffixL] at h
    split at h
    · exact absurd h (by simp)
    · split at h
      · rename_i hdrop
        have hp : l.take (l.length - suf.length) = p := by
          simpa using h
        have hsplit := List.take_append_drop (l.length - suf.length) l
        rw [hdrop, hp] at hsplit
        exact hsplit.symm
      · exact absurd h (by simp)
  · intro h
    subst h
    simp only [stripSuffixL, List.length_append]
    rw [if_neg (by omega)]
    have hd : (p ++ suf).drop (p.length + suf.length - suf.length) = suf := by
      simp
    have ht : (p ++ suf).take (p.length + suf.length - suf.length) = p := by
      simp
    rw [hd, if_pos rfl, ht]

theorem stripSuffixL_eq_none_of_not_suffix {suf l : List Char}
    (h : ¬ suf <:+ l) : stripSuffixL suf l = none := by
  cases hs : stripSuffixL suf l with
  | none => rfl
  | some p =>
    exact absurd ⟨p, ((stripSuffixL_eq_some_iff suf l p).1 hs).symm⟩ h

/-! ## Remote Resolver (`parse_repo_path`, src/main.rs:111-132)

Rust returns `(PathBuf, String)` holding the same path text twice; the model
returns the path string.  `anyhow!("无法解析仓库路径: {}", remote)` becomes the
error string below.
-/

/-- The parse-error message `无法解析仓库路径: {remote}`. -/
def repoPathErr (remote : String) : String :=
  "无法解析仓库路径: " ++ remote

/-- Embedding of `parse_repo_path` (src/main.rs:111-132): `git@`-prefixed
remotes take the second `:`-separated segment and strip `.git`; `http`-prefixed
remotes split on `/`, drop three segments, rejoin and strip `.git`; everything
else is a parse error. -/
def parse_repo_path (remote : String) : Except String String :=
  if startsWithB remote "git@" then
    match (splitOnChar ':' remote.toList).get? 1 with
    | some seg =>
      match stripSuffixL ".git".toList seg with
      | some p => .ok (String.mk p)
      | none => .error (repoPathErr remote)
    | none => .error (repoPathErr remote)
  else if startsWithB remote "http" then
    match stripSuffixL ".git".toList
        (joinWithChar '/' (List.drop 3 (splitOnChar '/' remote.toList))) with
    | some p => .ok (String.mk p)
    | none => .error (repoPathErr remote)
  else
    .error (repoPathErr remote)

example : parse_repo_path "git@host:group/name.git" = .ok "group/name" := rfl
example : parse_repo_path "https://host/group/name.git" = .ok "group/name" := rfl
example : parse_repo_path "ftp://host/group/name.git" =
    .error (repoPathErr "ftp://host/group/name.git") := rfl
example : parse_repo_path "alice@host:group/name.git" =
    .error (repoPathErr "alice@host:group/name.git") := rfl
example : parse_repo_path "git@h:a.git:b" = .ok "a" := rfl

/-- First occurrence of a character splits the list with a clean head part. -/
theorem exists_first_occurrence {c : Char} {l : List Char} (h : c ∈ l) :
    ∃ a b, l = a ++ c :: b ∧ c ∉ a := by
  induction l with
  | nil => cases h
  | cons x xs ih =>
    by_cases hx : x = c
    · subst hx
      exact ⟨[], xs, rfl, by simp⟩
    · have hmem : c ∈ xs := by
        rcases List.mem_cons.1 h with h1 | h1
        · exact absurd h1.symm hx
        · exact h1
      rcases ih hmem with ⟨a, b, hab, hna⟩
      exact ⟨x :: a, b, by rw [hab, List.cons_append],
        by simp only [List.mem_cons, not_or]; exact ⟨fun hc => hx hc.symm, hna⟩⟩

/-- The SSH branch on well-formed `git@` remotes: host and path free of `:`. -/
theorem parse_repo_path_gitAt (host path : String)
    (hh : ':' ∉ host.toList) (hp : ':' ∉ path.toList) :
    parse_repo_path ("git@" ++ host ++ ":" ++ path ++ ".git") = .ok path := by
  have hl : ("git@" ++ host ++ ":" ++ path ++ ".git").toList
      = (('g' :: 'i' :: 't' :: '@' :: []) ++ host.toList)
        ++ ':' :: (path.toList ++ ('.' :: 'g' :: 'i' :: 't' :: [])) := by
    show (((('g' :: 'i' :: 't' :: '@' :: []) ++ host.toList) ++ [':'])
        ++ path.toList) ++ ('.' :: 'g' :: 'i' :: 't' :: []) = _
    simp
  have hmem : ':' ∉ ('g' :: 'i' :: 't' :: '@' :: []) ++ host.toList := by
    intro hc
    rcases List.mem_append.1 hc with h1 | h1
    · simp at h1
    · exact hh h1
  have hmem2 : ':' ∉ path.toList ++ ('.' :: 'g' :: 'i' :: 't' :: []) := by
    intro hc
    rcases List.mem_append.1 hc with h1 | h1
    · exact hp h1
    · simp at h1
  have hpre : startsWithB ("git@" ++ host ++ ":" ++ path ++ ".git") "git@" = true := by
    rw [startsWithB, hl]
    show List.isPrefixOf ['g', 'i', 't', '@']
      ((('g' :: 'i' :: 't' :: '@' :: []) ++ host.toList)
        ++ ':' :: (path.toList ++ ('.' :: 'g' :: 'i' :: 't' :: []))) = true
    simp [List.isPrefixOf]
  have hsplit : splitOnChar ':' (("git@" ++ host ++ ":" ++ path ++ ".git").toList)
      = (('g' :: 'i' :: 't' :: '@' :: []) ++ host.toList)
        :: [path.toList ++ ('.' :: 'g' :: 'i' :: 't' :: [])] := by
    rw [hl, splitOnChar_append_cons hmem, splitOnChar_of_not_mem hmem2]
  have hstrip : stripSuffixL ".git".toList
      (path.toList ++ ('.' :: 'g' :: 'i' :: 't' :: [])) = some path.toList :=
    (stripSuffixL_eq_some_iff _ _ _).2 rfl
  rw [parse_repo_path, if_pos hpre, hsplit]
  simp only [List.get?]
  rw [hstrip]
  rfl

/-- The HTTP branch on well-formed `https://` remotes: host free of `/`. -/
theorem parse_repo_path_https (host tl : String) (hh : '/' ∉ host.toList) :
    parse_repo_path ("https://" ++ host ++ "/" ++ tl ++ ".git") = .ok tl := by
  have hl : ("https://" ++ host ++ "/" ++ tl ++ ".git").toList
      = ('h' :: 't' :: 't' :: 'p' :: 's' :: ':' :: [])
        ++ '/' :: ('/' :: (host.toList ++ '/' :: (tl.toList ++ ('.' :: 'g' :: 'i' :: 't' :: [])))) := by
    show (((('h' :: 't' :: 't' :: 'p' :: 's' :: ':' :: '/' :: '/' :: []) ++ host.toList)
        ++ ['/']) ++ tl.toList) ++ ('.' :: 'g' :: 'i' :: 't' :: []) = _
    simp
  have hpre : startsWithB ("https://" ++ host ++ "/" ++ tl ++ ".git") "http" = true := by
    rw [startsWithB, hl]
    show List.isPrefixOf ['h', 't', 't', 'p']
      (('h' :: 't' :: 't' :: 'p' :: 's' :: ':' :: [])
        ++ '/' :: ('/' :: (host.toList ++ '/' :: (tl.toList
          ++ ('.' :: 'g' :: 'i' :: 't' :: []))))) = true
    simp [List.isPrefixOf]
  have hnotgit : startsWithB ("https://" ++ host ++ "/" ++ tl ++ ".git") "git@" = false := by
    rw [startsWithB, hl]
    show List.isPrefixOf ['g', 'i', 't', '@']
      (('h' :: 't' :: 't' :: 'p' :: 's' :: ':' :: [])
        ++ '/' :: ('/' :: (host.toList ++ '/' :: (tl.toList
          ++ ('.' :: 'g' :: 'i' :: 't' :: []))))) = false
    simp [List.isPrefixOf]
  have hsplit : splitOnChar '/' (("https://" ++ host ++ "/" ++ tl ++ ".git").toList)
      = ('h' :: 't' :: 't' :: 'p' :: 's' :: ':' :: [])
        :: ([] : List Char)
        :: host.toList
        :: splitOnChar '/' (tl.toList ++ ('.' :: 'g' :: 'i' :: 't' :: [])) := by
    rw [hl, splitOnChar_append_cons (by simp) _]
    have h2 : splitOnChar '/'
        ('/' :: (host.toList ++ '/' :: (tl.toList ++ ('.' :: 'g' :: 'i' :: 't' :: []))))
        = ([] : List Char) :: splitOnChar '/'
            (host.toList ++ '/' :: (tl.toList ++ ('.' :: 'g' :: 'i' :: 't' :: []))) := by
      rw [splitOnChar, if_pos rfl]
    rw [h2, splitOnChar_append_cons hh]
  have hstrip : stripSuffixL ".git".toList
      (tl.toList ++ ('.' :: 'g' :: 'i' :: 't' :: [])) = some tl.toList :=
    (stripSuffixL_eq_some_iff _ _ _).2 rfl
  rw [parse_repo_path, if_neg (by rw [hnotgit]; exact Bool.false_ne_true), if_pos hpre,
    hsplit]
  simp only [List.drop]
  rw [joinWithChar_splitOnChar, hstrip]
  rfl

/-- C1 (amended): with the SSH user fixed to the literal `git`, the claimed
path computations hold for both shapes; the counterexample shows the
original universal `user@` form fails at user `alice`. -/
theorem claim_c1_remote_resolver :
    (∀ host path : String, ':' ∉ host.toList → ':' ∉ path.toList →
      parse_repo_path ("git@" ++ host ++ ":" ++ path ++ ".git") = .ok path) ∧
    (∀ host tl : String, '/' ∉ host.toList →
      parse_repo_path ("https://" ++ host ++ "/" ++ tl ++ ".git") = .ok tl) ∧
    parse_repo_path "git@host:group/name.git" = .ok "group/name" ∧
    parse_repo_path "https://host/group/name.git" = .ok "group/name" :=
  ⟨parse_repo_path_gitAt, parse_repo_path_https, rfl, rfl⟩

/-- C1 counterexample: the SSH-style remote `alice@host:group/name.git` (user
`alice`, exactly the claimed `user@host:path.git` shape) is rejected with a
parse error instead of resolving to `group/name`: the SSH branch matches
only the literal prefix `git@`, and this remote matches neither branch. -/
theorem claim_c1_counterexample :
    parse_repo_path "alice@host:group/name.git"
      = .error (repoPathErr "alice@host:group/name.git") := rfl

/-- C1 witness: the amended theorem applied at concrete well-formed inputs. -/
theorem claim_c1_witness :
    parse_repo_path ("git@" ++ "example.com" ++ ":" ++ "teamA/svc" ++ ".git")
      = .ok "teamA/svc" :=
  claim_c1_remote_resolver.1 "example.com" "teamA/svc" (by decide) (by decide)

/-- A remote recognized by neither branch always yields the parse error. -/
theorem parse_repo_path_unrecognized {r : String}
    (hg : startsWithB r "git@" = false) (hh : startsWithB r "http" = false) :
    parse_repo_path r = .error (repoPathErr r) := by
  rw [parse_repo_path, if_neg (by rw [hg]; exact Bool.false_ne_true),
    if_neg (by rw [hh]; exact Bool.false_ne_true)]

/-- C2 (amended): every remote that is neither `git@`- nor `http`-prefixed is
a parse error; and every remote lacking the trailing `.git` — provided a
`git@` remote has at most one colon — is a parse error. -/
theorem claim_c2_parse_error :
    (∀ r : String, startsWithB r "git@" = false → startsWithB r "http" = false →
      parse_repo_path r = .error (repoPathErr r)) ∧
    (∀ r : String, endsWithB r ".git" = false →
      (startsWithB r "git@" = true → r.toList.count ':' ≤ 1) →
      parse_repo_path r = .error (repoPathErr r)) := by
  refine ⟨fun r hg hh => parse_repo_path_unrecognized hg hh, fun r hend hcount => ?_⟩
  have hnosuf : ¬ (".git".toList <:+ r.toList) := by
    intro hsuf
    rw [endsWithB] at hend
    rw [(List.isSuffixOf_iff_suffix).symm.mp hsuf] at hend
    exact absurd hend (by simp)
  cases hg : startsWithB r "git@" with
  | true =>
    have hc := hcount hg
    rw [parse_repo_path, if_pos hg]
    rcases Nat.lt_or_ge (r.toList.count ':') 1 with h0 | h1
    · have hnomem : ':' ∉ r.toList :=
        List.count_eq_zero.1 (Nat.lt_one_iff.1 h0)
      rw [splitOnChar_of_not_mem hnomem]
      rfl
    · have hone : r.toList.count ':' = 1 := Nat.le_antisymm hc h1
      have hmem : ':' ∈ r.toList := by
        by_contra hnm
        rw [List.count_eq_zero.2 hnm] at hone
        exact absurd hone (by simp)
      rcases exists_first_occurrence hmem with ⟨a, b, hab, hna⟩
      have hbcount : b.count ':' = 0 := by
        rw [hab, List.count_append, List.count_cons_self,
          List.count_eq_zero.2 hna] at hone
        omega
      have hnb : ':' ∉ b := List.count_eq_zero.1 hbcount
      rw [hab, splitOnChar_append_cons hna, splitOnChar_of_not_mem hnb]
      have hstrip : stripSuffixL ".git".toList b = none := by
        apply stripSuffixL_eq_none_of_not_suffix
        intro hsuf
        apply hnosuf
        rw [hab]
        exact hsuf.trans ⟨a ++ [':'], by simp⟩
      simp only [List.get?]
      rw [hstrip]
  | false =>
    cases hh : startsWithB r "http" with
    | false => exact parse_repo_path_unrecognized hg hh
    | true =>
      rw [parse_repo_path, if_neg (by rw [hg]; exact Bool.false_ne_true),
        if_pos hh]
      have hstrip : stripSuffixL ".git".toList
          (joinWithChar '/' (List.drop 3 (splitOnChar '/' r.toList))) = none := by
        apply stripSuffixL_eq_none_of_not_suffix
        intro hsuf
        exact hnosuf (hsuf.trans (joinWithChar_drop_suffix '/' r.toList 3))
      rw [hstrip]

/-- C2 counterexample: `git@h:a.git:b` lacks the trailing `.git` suffix, yet
`parse_repo_path` resolves it to `a` instead of failing — the code strips
`.git` from the second colon-separated segment, not from the whole remote. -/
theorem claim_c2_counterexample :
    parse_repo_path "git@h:a.git:b" = .ok "a" ∧
    endsWithB "git@h:a.git:b" ".git" = false :=
  ⟨rfl, rfl⟩

/-- C2 witness: the amended theorem applied at an unrecognized scheme and at a
`git@` remote lacking the suffix. -/
theorem claim_c2_witness :
    parse_repo_path "ftp://host/x.git" = .error (repoPathErr "ftp://host/x.git") ∧
    parse_repo_path "git@host:repo" = .error (repoPathErr "git@host:repo") :=
  ⟨claim_c2_parse_error.1 "ftp://host/x.git" rfl rfl,
   claim_c2_parse_error.2 "git@host:repo" rfl (fun _ => by decide)⟩

/-! ## Manifest data model and JSON store

`struct RepoRemote { remote: String }` (src/main.rs:35-38).  Scan writes the
record list with `serde_json::to_writer_pretty` (src/main.rs:81-84) and Clone
reads it back with `serde_json::from_str::<Vec<RepoRemote>>` (src/main.rs:90).
-/

/-- One manifest record: `struct RepoRemote { remote: String }`. -/
structure RepoRemote where
  remote : String
  deriving DecidableEq, Repr

/-- The fixed manifest path `const JSON_FILE: &str = ".git_projects.json"`. -/
def JSON_FILE : String := ".git_projects.json"

def quoteC : Char := '\x22'

def bslashC : Char := '\x5c'

def lbraceC : Char := '\x7b'

def rbraceC : Char := '\x7d'

/-- The lowercase hex digit for `n < 16` (`48` is `'0'`, `87 + 10` is `'a'`). -/
def hexDig (n : Nat) : Char :=
  if n < 10 then Char.ofNat (48 + n) else Char.ofNat (87 + n)

/-- Modelled from the spec: `serde_json`'s JSON string escaping (the writer
behind `to_writer_pretty`, a dependency whose code is not part of this
repository).  `"` and `\` get a backslash, the five short control escapes are
used where JSON defines them, remaining control characters become `\u00XX`,
and all other characters are written verbatim. -/
def escapeChar (c : Char) : List Char :=
  if c = quoteC then [bslashC, quoteC]
  else if c = bslashC then [bslashC, bslashC]
  else if c.toNat < 32 then
    if c = '\x08' then [bslashC, 'b']
    else if c = '\x09' then [bslashC, 't']
    else if c = '\x0a' then [bslashC, 'n']
    else if c = '\x0c' then [bslashC, 'f']
    else if c = '\x0d' then [bslashC, 'r']
    else [bslashC, 'u', '0', '0', hexDig (c.toNat / 16), hexDig (c.toNat % 16)]
  else [c]

def escapeL : List Char → List Char
  | [] => []
  | c :: s => escapeChar c ++ escapeL s

/-- One pretty-printed array element, exactly as `to_writer_pretty` indents a
`RepoRemote`: two-space indent, brace, the `"remote"` key at four spaces, the
escaped value, closing brace at two spaces. -/
def elemL (r : RepoRemote) : List Char :=
  ' ' :: ' ' :: lbraceC :: '\x0a' :: ' ' :: ' ' :: ' ' :: ' ' :: quoteC ::
  'r' :: 'e' :: 'm' :: 'o' :: 't' :: 'e' :: quoteC :: ':' :: ' ' :: quoteC ::
  (escapeL r.remote.toList ++ [quoteC, '\x0a', ' ', ' ', rbraceC])

def elemsL : List RepoRemote → List Char
  | [] => []
  | [r] => elemL r
  | r :: rest => elemL r ++ ',' :: '\x0a' :: elemsL rest

/-- The manifest text Scan writes: `serde_json::to_writer_pretty` output for a
`Vec<RepoRemote>` (src/main.rs:83). -/
def serializeManifestL (rs : List RepoRemote) : List Char :=
  match rs with
  | [] => ['[', ']']
  | _ => '[' :: '\x0a' :: (elemsL rs ++ ['\x0a', ']'])

def serializeManifest (rs : List RepoRemote) : String :=
  String.mk (serializeManifestL rs)

def hexVal (c : Char) : Option Nat :=
  if 48 ≤ c.toNat ∧ c.toNat ≤ 57 then some (c.toNat - 48)
  else if 97 ≤ c.toNat ∧ c.toNat ≤ 102 then some (c.toNat - 87)
  else if 65 ≤ c.toNat ∧ c.toNat ≤ 70 then some (c.toNat - 55)
  else none

def isJsonWs (c : Char) : Bool :=
  c = ' ' || c = '\x09' || c = '\x0a' || c = '\x0d'

def skipWs : List Char → List Char
  | [] => []
  | c :: rest => if isJsonWs c then skipWs rest else c :: rest

/-- Modelled from the spec: the JSON string reader of `serde_json::from_str`
(a dependency whose code is not part of this repository), after an opening
quote: plain characters until the closing quote, backslash escapes including
`\uXXXX`, raw control characters rejected.  The fuel argument only makes the
recursion structural; one unit is spent per produced character, and callers
supply the input length, which always suffices.  `psbStep` is one step of
the reader, abstracted over the continuation for the remaining input. -/
def psbStep (rec : List Char → Option (List Char × List Char))
    (c : Char) (rest : List Char) : Option (List Char × List Char) :=
  if c = quoteC then some ([], rest)
  else if c = bslashC then
    match rest with
    | [] => none
    | e :: rest2 =>
      if e = quoteC then (rec rest2).map (fun p => (quoteC :: p.1, p.2))
      else if e = bslashC then (rec rest2).map (fun p => (bslashC :: p.1, p.2))
      else if e = '/' then (rec rest2).map (fun p => ('/' :: p.1, p.2))
      else if e = 'b' then (rec rest2).map (fun p => ('\x08' :: p.1, p.2))
      else if e = 'f' then (rec rest2).map (fun p => ('\x0c' :: p.1, p.2))
      else if e = 'n' then (rec rest2).map (fun p => ('\x0a' :: p.1, p.2))
      else if e = 'r' then (rec rest2).map (fun p => ('\x0d' :: p.1, p.2))
      else if e = 't' then (rec rest2).map (fun p => ('\x09' :: p.1, p.2))
      else if e = 'u' then
        match rest2 with
        | h1 :: h2 :: h3 :: h4 :: rest3 =>
          match hexVal h1, hexVal h2, hexVal h3, hexVal h4 with
          | some v1, some v2, some v3, some v4 =>
            if _hn : Nat.isValidChar (((v1 * 16 + v2) * 16 + v3) * 16 + v4) then
              (rec rest3).map
                (fun p => (Char.ofNat (((v1 * 16 + v2) * 16 + v3) * 16 + v4) :: p.1, p.2))
            else none
          | _, _, _, _ => none
        | _ => none
      else none
  else if c.toNat < 32 then none
  else (rec rest).map (fun p => (c :: p.1, p.2))

def psbF : Nat → List Char → Option (List Char × List Char)
  | 0, _ => none
  | _ + 1, [] => none
  | fuel + 1, c :: rest => psbStep (psbF fuel) c rest

/-- The JSON string reader; the input length bounds the recursion. -/
def parseStringBody (l : List Char) : Option (List Char × List Char) :=
  psbF l.length l

/-- Modelled from the spec: `serde_json`'s reader for one manifest object —
whitespace, `{`, the `"remote"` key, `:`, a string value, whitespace, `}`. -/
def parseRecord (l : List Char) : Option (RepoRemote × List Char) :=
  match skipWs l with
  | [] => none
  | b :: l1 =>
    if b = lbraceC then
      match skipWs l1 with
      | [] => none
      | q :: l2 =>
        if q = quoteC then
          match parseStringBody l2 with
          | none => none
          | some (key, l3) =>
            if key = ['r', 'e', 'm', 'o', 't', 'e'] then
              match skipWs l3 with
              | [] => none
              | co :: l4 =>
                if co = ':' then
                  match skipWs l4 with
                  | [] => none
                  | q2 :: l5 =>
                    if q2 = quoteC then
                      match parseStringBody l5 with
                      | none => none
                      | some (value, l6) =>
                        match skipWs l6 with
                        | [] => none
                        | rb :: l7 =>
                          if rb = rbraceC then some (⟨String.mk value⟩, l7) else none
                    else none
                else none
            else none
        else none
    else none

/-- The comma-separated element loop of the array reader; the fuel only bounds
the number of elements and is supplied from the input length. -/
def parseElems : Nat → List Char → Option (List RepoRemote)
  | 0, _ => none
  | fuel + 1, l =>
    match parseRecord l with
    | none => none
    | some (r, l1) =>
      match skipWs l1 with
      | [] => none
      | c :: l2 =>
        if c = ',' then (parseElems fuel l2).map (fun rs => r :: rs)
        else if c = ']' then (if skipWs l2 = [] then some [r] else none)
        else none

/-- Modelled from the spec: `serde_json::from_str::<Vec<RepoRemote>>`
(src/main.rs:90) — a JSON array of objects each holding the single string
field `remote`; anything else is a parse failure (`none`). -/
def parseManifestL (l : List Char) : Option (List RepoRemote) :=
  match skipWs l with
  | [] => none
  | b :: l1 =>
    if b = '[' then
      match skipWs l1 with
      | [] => none
      | c :: _l2 =>
        if c = ']' then (if skipWs _l2 = [] then some [] else none)
        else parseElems (l1.length + 1) l1
    else none

def parseManifest (s : String) : Option (List RepoRemote) :=
  parseManifestL s.toList

example : parseManifest (serializeManifest []) = some [] := rfl
example : parseManifest (serializeManifest [⟨"git@h:a.git"⟩, ⟨"x\x22y\x0az"⟩])
    = some [⟨"git@h:a.git"⟩, ⟨"x\x22y\x0az"⟩] := rfl
example : parseManifest "oops" = none := rfl
example : parseManifest "" = none := rfl

theorem hexVal_hexDig (x : Nat) (h : x < 16) : hexVal (hexDig x) = some x := by
  interval_cases x <;> rfl



theorem psbF_cons (f : Nat) (c : Char) (rest : List Char) :
    psbF (f + 1) (c :: rest) = psbStep (psbF f) c rest := rfl

theorem escapeChar_length_pos (c : Char) : 0 < (escapeChar c).length := by
  rw [escapeChar]
  repeat' split
  all_goals simp

theorem escapeL_length_ge (s : List Char) : s.length ≤ (escapeL s).length := by
  induction s with
  | nil => simp [escapeL]
  | cons c s ih =>
    rw [escapeL, List.length_append, List.length_cons]
    have := escapeChar_length_pos c
    omega

/-- Reading back an escaped string recovers it exactly, leaving the input
after the closing quote untouched; the fuel must exceed the decoded length. -/
theorem psbF_escapeL (s : List Char) :
    ∀ (fuel : Nat) (rest : List Char), s.length < fuel →
      psbF fuel (escapeL s ++ quoteC :: rest) = some (s, rest) := by
  induction s with
  | nil =>
    intro fuel rest hf
    match fuel, hf with
    | f + 1, _ => rfl
  | cons c s ih =>
    intro fuel rest hf
    match fuel, hf with
    | f + 1, hf =>
      have hs : s.length < f := by
        rw [List.length_cons] at hf
        omega
      rw [escapeL, List.append_assoc]
      by_cases hq : c = quoteC
      · subst hq
        show Option.map (fun p => (quoteC :: p.1, p.2))
          (psbF f (escapeL s ++ quoteC :: rest)) = some (quoteC :: s, rest)
        rw [ih f rest hs]
        rfl
      · by_cases hb : c = bslashC
        · subst hb
          show Option.map (fun p => (bslashC :: p.1, p.2))
            (psbF f (escapeL s ++ quoteC :: rest)) = some (bslashC :: s, rest)
          rw [ih f rest hs]
          rfl
        · by_cases hctrl : c.toNat < 32
          · by_cases h8 : c = '\x08'
            · subst h8
              show Option.map (fun p => ('\x08' :: p.1, p.2))
                (psbF f (escapeL s ++ quoteC :: rest)) = some ('\x08' :: s, rest)
              rw [ih f rest hs]
              rfl
            · by_cases h9 : c = '\x09'
              · subst h9
                show Option.map (fun p => ('\x09' :: p.1, p.2))
                  (psbF f (escapeL s ++ quoteC :: rest)) = some ('\x09' :: s, rest)
                rw [ih f rest hs]
                rfl
              · by_cases ha : c = '\x0a'
                · subst ha
                  show Option.map (fun p => ('\x0a' :: p.1, p.2))
                    (psbF f (escapeL s ++ quoteC :: rest)) = some ('\x0a' :: s, rest)
                  rw [ih f rest hs]
                  rfl
                · by_cases hc12 : c = '\x0c'
                  · subst hc12
                    show Option.map (fun p => ('\x0c' :: p.1, p.2))
                      (psbF f (escapeL s ++ quoteC :: rest)) = some ('\x0c' :: s, rest)
                    rw [ih f rest hs]
                    rfl
                  · by_cases hd : c = '\x0d'
                    · subst hd
                      show Option.map (fun p => ('\x0d' :: p.1, p.2))
                        (psbF f (escapeL s ++ quoteC :: rest)) = some ('\x0d' :: s, rest)
                      rw [ih f rest hs]
                      rfl
                    · rw [escapeChar, if_neg hq, if_neg hb, if_pos hctrl,
                        if_neg h8, if_neg h9, if_neg ha, if_neg hc12, if_neg hd]
                      have hhi : hexVal (hexDig (c.toNat / 16)) = some (c.toNat / 16) :=
                        hexVal_hexDig _ (by omega)
                      have hlo : hexVal (hexDig (c.toNat % 16)) = some (c.toNat % 16) :=
                        hexVal_hexDig _ (Nat.mod_lt _ (by omega))
                      have hvalid : Nat.isValidChar
                          (((0 * 16 + 0) * 16 + c.toNat / 16) * 16 + c.toNat % 16) := by
                        left
                        have := Nat.div_add_mod c.toNat 16
                        omega
                      show (match hexVal '0', hexVal '0', hexVal (hexDig (c.toNat / 16)),
                          hexVal (hexDig (c.toNat % 16)) with
                        | some v1, some v2, some v3, some v4 =>
                          if _hn : Nat.isValidChar (((v1 * 16 + v2) * 16 + v3) * 16 + v4) then
                            Option.map (fun p =>
                              (Char.ofNat (((v1 * 16 + v2) * 16 + v3) * 16 + v4) :: p.1, p.2))
                              (psbF f (escapeL s ++ quoteC :: rest))
                          else none
                        | _, _, _, _ => none) = some (c :: s, rest)
                      rw [hhi, hlo]
                      show (if _hn : Nat.isValidChar
                            (((0 * 16 + 0) * 16 + c.toNat / 16) * 16 + c.toNat % 16) then
                          Option.map (fun p =>
                            (Char.ofNat (((0 * 16 + 0) * 16 + c.toNat / 16) * 16
                              + c.toNat % 16) :: p.1, p.2))
                            (psbF f (escapeL s ++ quoteC :: rest))
                        else none) = some (c :: s, rest)
                      rw [dif_pos hvalid, ih f rest hs]
                      have harg : c.toNat / 16 * 16 + c.toNat % 16 = c.toNat := by omega
                      simp only [Option.map_some', zero_mul, zero_add, harg,
                        Char.ofNat_toNat]
          · rw [escapeChar, if_neg hq, if_neg hb, if_neg hctrl,
              List.singleton_append, psbF_cons, psbStep.eq_def,
              if_neg hq, if_neg hb, if_neg hctrl, ih f rest hs]
            rfl

theorem parseStringBody_escapeL (s rest : List Char) :
    parseStringBody (escapeL s ++ quoteC :: rest) = some (s, rest) := by
  rw [parseStringBody]
  apply psbF_escapeL
  have := escapeL_length_ge s
  rw [List.length_append, List.length_cons]
  omega

/-- Parsing one pretty-printed element yields its record and the rest. -/
theorem parseRecord_elemL (r : RepoRemote) (rest : List Char) :
    parseRecord (elemL r ++ rest) = some (r, rest) := by
  show (match parseStringBody
      ((escapeL r.remote.toList ++ [quoteC, '\x0a', ' ', ' ', rbraceC]) ++ rest) with
    | none => none
    | some (value, l6) =>
      match skipWs l6 with
      | [] => none
      | rb :: l7 =>
        if rb = rbraceC then some (⟨String.mk value⟩, l7) else none)
    = some (r, rest)
  rw [List.append_assoc]
  show (match parseStringBody
      (escapeL r.remote.toList
        ++ quoteC :: ('\x0a' :: ' ' :: ' ' :: rbraceC :: rest)) with
    | none => none
    | some (value, l6) =>
      match skipWs l6 with
      | [] => none
      | rb :: l7 =>
        if rb = rbraceC then some (⟨String.mk value⟩, l7) else none)
    = some (r, rest)
  rw [parseStringBody_escapeL]
  rfl

theorem skipWs_cons_ws {c : Char} (hws : isJsonWs c = true) (l : List Char) :
    skipWs (c :: l) = skipWs l := by
  rw [skipWs, if_pos hws]

theorem parseRecord_cons_ws {c : Char} (hws : isJsonWs c = true) (l : List Char) :
    parseRecord (c :: l) = parseRecord l := by
  rw [parseRecord, parseRecord, skipWs_cons_ws hws]

theorem parseElems_cons_ws (f : Nat) {c : Char} (hws : isJsonWs c = true)
    (l : List Char) :
    parseElems (f + 1) (c :: l) = parseElems (f + 1) l := by
  rw [parseElems, parseElems, parseRecord_cons_ws hws]

theorem elemL_length_pos (r : RepoRemote) : 0 < (elemL r).length := by
  simp [elemL]

theorem elemsL_length_ge (rs : List RepoRemote) :
    rs.length ≤ (elemsL rs).length := by
  induction rs with
  | nil => simp [elemsL]
  | cons r rs ih =>
    cases rs with
    | nil =>
      have := elemL_length_pos r
      simp only [elemsL, List.length_cons, List.length_nil]
      omega
    | cons r2 rs2 =>
      have h1 := elemL_length_pos r
      simp only [elemsL, List.length_append, List.length_cons] at ih ⊢
      omega

/-- Parsing the comma-separated serialized elements recovers the list. -/
theorem parseElems_elemsL (rs : List RepoRemote) :
    ∀ fuel : Nat, rs.length < fuel → rs ≠ [] →
      parseElems fuel (elemsL rs ++ ['\x0a', ']']) = some rs := by
  induction rs with
  | nil => intro fuel _ hne; exact absurd rfl hne
  | cons r rs ih =>
    intro fuel hf _
    match fuel, hf with
    | f + 1, hf =>
      cases rs with
      | nil =>
        rw [elemsL, parseElems, parseRecord_elemL r ['\x0a', ']']]
        rfl
      | cons r2 rs2 =>
        have hlen : (r2 :: rs2).length < f := by
          rw [List.length_cons] at hf
          omega
        obtain ⟨f2, rfl⟩ : ∃ f2, f = f2 + 1 := ⟨f - 1, by omega⟩
        rw [elemsL, List.append_assoc, List.cons_append, List.cons_append,
          parseElems,
          parseRecord_elemL r (',' :: '\x0a' :: (elemsL (r2 :: rs2) ++ ['\x0a', ']']))]
        show (parseElems (f2 + 1)
            ('\x0a' :: (elemsL (r2 :: rs2) ++ ['\x0a', ']']))).map
            (fun rs => r :: rs) = some (r :: r2 :: rs2)
        rw [parseElems_cons_ws f2 (show isJsonWs '\x0a' = true from rfl),
          ih (f2 + 1) hlen (fun h => List.noConfusion h)]
        · rfl
        · exact fun h => List.noConfusion h

/-- After the opening bracket, a non-empty array is handed to the element
loop with the input length as fuel. -/
theorem parseManifestL_bracket (l : List Char)
    (hskip : ∃ x, skipWs l = lbraceC :: x) :
    parseManifestL ('[' :: l) = parseElems (l.length + 1) l := by
  obtain ⟨x, hx⟩ := hskip
  show (match skipWs l with
    | [] => none
    | c :: l2 =>
      if c = ']' then (if skipWs l2 = [] then some [] else none)
      else parseElems (l.length + 1) l) = parseElems (l.length + 1) l
  rw [hx]
  show (if lbraceC = ']' then (if skipWs x = [] then some [] else none)
    else parseElems (l.length + 1) l) = parseElems (l.length + 1) l
  rw [if_neg (by decide : ¬ lbraceC = ']')]

/-- C9: serializing any list of records with Scan's pretty JSON writer and
reading it back with Clone's JSON reader returns exactly the same records —
the same remote strings in the same order. -/
theorem claim_c9_manifest_roundtrip (rs : List RepoRemote) :
    parseManifest (serializeManifest rs) = some rs := by
  cases rs with
  | nil => rfl
  | cons r rs =>
    show parseManifestL ('[' :: '\x0a' :: (elemsL (r :: rs) ++ ['\x0a', ']']))
      = some (r :: rs)
    cases rs with
    | nil =>
      rw [parseManifestL_bracket ('\x0a' :: (elemsL [r] ++ ['\x0a', ']'])) ⟨_, rfl⟩,
        parseElems_cons_ws _ (show isJsonWs '\x0a' = true from rfl)]
      apply parseElems_elemsL [r] _ _ (fun h => List.noConfusion h)
      have := elemsL_length_ge [r]
      simp only [List.length_cons, List.length_append, List.length_nil] at this ⊢
      omega
    | cons r2 rs2 =>
      rw [parseManifestL_bracket
          ('\x0a' :: (elemsL (r :: r2 :: rs2) ++ ['\x0a', ']'])) ⟨_, rfl⟩,
        parseElems_cons_ws _ (show isJsonWs '\x0a' = true from rfl)]
      apply parseElems_elemsL (r :: r2 :: rs2) _ _ (fun h => List.noConfusion h)
      have := elemsL_length_ge (r :: r2 :: rs2)
      simp only [List.length_cons, List.length_append, List.length_nil] at this ⊢
      omega

/-! ## Clone workflow (`clone_from_json`, src/main.rs:87-109)

Effects are explicit: `CloneEnv` holds the filesystem/subprocess verdicts
(`repo_path.exists()`, `fs::create_dir_all`, whether `git clone` can be
spawned — its *exit status* is read by `.status()` and discarded, so only a
spawn failure is an error), and the result is the ordered trace of external
actions together with the propagated `Result`.  `Path::parent` on the
relative paths produced by `parse_repo_path` is the prefix before the last
`/`, or the empty path when there is no `/`; `create_dir_all("")` is a no-op
success in Rust and is modelled as doing nothing. -/

structure CloneEnv where
  pathExists : String → Bool
  mkdirOk : String → Bool
  cloneSpawn : String → String → Option Int

inductive CloneEvent
  | skipNotice (path : String)
  | mkdirAll (dir : String)
  | gitClone (remote path : String)
  deriving DecidableEq, Repr

def parentDir (p : String) : String :=
  String.mk (((p.toList.reverse.dropWhile (fun c => ¬ c = '/')).drop 1).reverse)

/-- `anyhow` context `git clone {} 失败` attached to a spawn failure. -/
def cloneErr (remote : String) : String := "git clone " ++ remote ++ " 失败"

/-- Stand-in text for the raw `io::Error` of `create_dir_all` (no context is
attached in the source). -/
def mkdirErr (dir : String) : String := "create_dir_all " ++ dir ++ " 失败"

/-- Stand-in text for the `serde_json` parse error propagated by `?` (no
context is attached in the source). -/
def manifestParseErr : String := "JSON 解析失败"

/-- The `with_context` message `请先执行 scan，未找到 {JSON_FILE}` for a missing
manifest. -/
def manifestMissingErr : String := "请先执行 scan，未找到 " ++ JSON_FILE

/-- The loop body of `clone_from_json` for one record (src/main.rs:91-106). -/
def processRepo (env : CloneEnv) (remote : String) :
    List CloneEvent × Except String Unit :=
  match parse_repo_path remote with
  | .error e => ([], .error e)
  | .ok p =>
    if env.pathExists p then ([CloneEvent.skipNotice p], .ok ())
    else if parentDir p = "" then
      ([CloneEvent.gitClone remote p],
        match env.cloneSpawn remote p with
        | some _exitCode => .ok ()
        | none => .error (cloneErr remote))
    else if env.mkdirOk (parentDir p) then
      ([CloneEvent.mkdirAll (parentDir p), CloneEvent.gitClone remote p],
        match env.cloneSpawn remote p with
        | some _exitCode => .ok ()
        | none => .error (cloneErr remote))
    else
      ([CloneEvent.mkdirAll (parentDir p)], .error (mkdirErr (parentDir p)))

def cloneRepos (env : CloneEnv) : List String → List CloneEvent × Except String Unit
  | [] => ([], .ok ())
  | r :: rest =>
    let (evs, res) := processRepo env r
    match res with
    | .error e => (evs, .error e)
    | .ok () =>
      let (evs2, res2) := cloneRepos env rest
      (evs ++ evs2, res2)

/-- Embedding of `clone_from_json` (src/main.rs:87-109): the manifest read
result (`none` = `fs::read_to_string` failed), then JSON parsing, then the
per-record loop. -/
def clone_from_json (env : CloneEnv) (manifest : Option String) :
    List CloneEvent × Except String Unit :=
  match manifest with
  | none => ([], .error manifestMissingErr)
  | some s =>
    match parseManifest s with
    | none => ([], .error manifestParseErr)
    | some repos => cloneRepos env (repos.map RepoRemote.remote)

/-- Naive substring test (Rust reviewers read `contains`). -/
def containsStr (hay needle : String) : Bool :=
  hay.toList.tails.any (fun t => needle.toList.isPrefixOf t)

/-- C3: with the manifest file missing, Clone fails with the error whose
context mentions `scan`, and with present but malformed JSON it fails with
the parse error; in both cases the action trace is empty — no directory is
created and no clone is invoked before failing. -/
theorem claim_c3_clone_missing_manifest (env : CloneEnv) :
    (clone_from_json env none = ([], .error manifestMissingErr)
      ∧ containsStr manifestMissingErr "scan" = true) ∧
    ∀ s : String, parseManifest s = none →
      clone_from_json env (some s) = ([], .error manifestParseErr) := by
  refine ⟨⟨rfl, by decide⟩, fun s hs => ?_⟩
  simp only [clone_from_json, hs]

/-- C3 witness: a malformed manifest text under an arbitrary environment. -/
theorem claim_c3_witness :
    clone_from_json ⟨fun _ => false, fun _ => true, fun _ _ => some 0⟩ (some "oops")
      = ([], .error manifestParseErr) :=
  (claim_c3_clone_missing_manifest _).2 "oops" rfl

/-- C4: a record whose resolved path already exists is skipped — its whole
trace is the skip notice, with no mkdir and no clone, and no error — and the
workflow continues with the remaining records unchanged. -/
theorem claim_c4_clone_idempotent (env : CloneEnv) (r p : String)
    (hp : parse_repo_path r = .ok p) (hex : env.pathExists p = true) :
    processRepo env r = ([CloneEvent.skipNotice p], .ok ()) ∧
    ∀ rest : List String, cloneRepos env (r :: rest)
      = (CloneEvent.skipNotice p :: (cloneRepos env rest).1,
          (cloneRepos env rest).2) := by
  have h1 : processRepo env r = ([CloneEvent.skipNotice p], .ok ()) := by
    simp only [processRepo, hp, hex]
    rfl
  refine ⟨h1, fun rest => ?_⟩
  simp only [cloneRepos, h1, List.singleton_append]

/-- C4 witness: a `git@` remote whose path `a` already exists is skipped. -/
theorem claim_c4_witness :
    processRepo ⟨fun _ => true, fun _ => true, fun _ _ => some 0⟩ "git@h:a.git"
      = ([CloneEvent.skipNotice "a"], .ok ()) :=
  (claim_c4_clone_idempotent ⟨fun _ => true, fun _ => true, fun _ _ => some 0⟩
    "git@h:a.git" "a" rfl rfl).1

/-! ## Scan workflow (`scan_git_projects`, src/main.rs:61-85)

`ScanEnv.remoteQuery` is the outcome of `git remote get-url origin` in a
directory: `none` when the command cannot run (`.output().ok()` swallows it),
otherwise `some (exit-status success?, stdout)`.  `trimS` models `str::trim`
for the ASCII whitespace git output ends with. -/

structure ScanEnv where
  remoteQuery : String → Option (Bool × String)

def trimS (s : String) : String :=
  String.mk (((s.toList.dropWhile Char.isWhitespace).reverse.dropWhile
    Char.isWhitespace).reverse)

/-- The record-collection loop of `scan_git_projects` (src/main.rs:63-79):
only a successful query with a non-empty trimmed URL pushes a record. -/
def scanRecords (env : ScanEnv) : List String → List RepoRemote
  | [] => []
  | d :: ds =>
    (match env.remoteQuery d with
     | some (true, out) =>
       if trimS out = "" then [] else [⟨trimS out⟩]
     | _ => []) ++ scanRecords env ds

/-- Embedding of `scan_git_projects` (src/main.rs:61-85): collect the
records, then write the pretty JSON manifest (`writeOk` is the verdict of
`File::create`/`to_writer_pretty`); the records and the written text are
returned for inspection. -/
def scan_git_projects (env : ScanEnv) (dirs : List String) (writeOk : Bool) :
    Except String (List RepoRemote × String) :=
  if writeOk then
    .ok (scanRecords env dirs, serializeManifest (scanRecords env dirs))
  else .error ("无法创建 " ++ JSON_FILE)

/-- C5: a directory whose `origin` query fails — the command cannot run or
exits non-zero — contributes nothing and causes no error: Scan still
succeeds, producing exactly the records of the remaining directories; and a
directory whose query succeeds with a non-empty trimmed URL contributes
exactly one record. -/
theorem claim_c5_scan_swallows_query_failure (env : ScanEnv) (d : String)
    (rest : List String) :
    ((env.remoteQuery d = none ∨ ∃ out, env.remoteQuery d = some (false, out)) →
      scanRecords env (d :: rest) = scanRecords env rest ∧
      scan_git_projects env (d :: rest) true
        = .ok (scanRecords env rest, serializeManifest (scanRecords env rest))) ∧
    ∀ out, env.remoteQuery d = some (true, out) → ¬ trimS out = "" →
      scanRecords env (d :: rest) = ⟨trimS out⟩ :: scanRecords env rest := by
  constructor
  · intro h
    have hrec : scanRecords env (d :: rest) = scanRecords env rest := by
      rcases h with h | ⟨out, h⟩ <;> simp [scanRecords, h]
    exact ⟨hrec, by simp [scan_git_projects, hrec]⟩
  · intro out hq hne
    simp [scanRecords, hq, hne]

/-- C5 witness: an unrunnable query is skipped silently; a successful query
with padded output contributes its trimmed URL. -/
theorem claim_c5_witness :
    (scanRecords ⟨fun _ => none⟩ ["d1"] = scanRecords ⟨fun _ => none⟩ [] ∧
      scan_git_projects ⟨fun _ => none⟩ ["d1"] true
        = .ok (scanRecords ⟨fun _ => none⟩ [],
            serializeManifest (scanRecords ⟨fun _ => none⟩ []))) ∧
    scanRecords ⟨fun _ => some (true, " git@h:x.git\x0a")⟩ ["d2"]
      = ⟨trimS " git@h:x.git\x0a"⟩
        :: scanRecords ⟨fun _ => some (true, " git@h:x.git\x0a")⟩ [] :=
  ⟨(claim_c5_scan_swallows_query_failure ⟨fun _ => none⟩ "d1" []).1 (Or.inl rfl),
   (claim_c5_scan_swallows_query_failure _ "d2" []).2 " git@h:x.git\x0a" rfl
     (by decide)⟩

/-- C10: a successful `origin` query whose trimmed output is empty also
contributes no record — only non-empty URLs enter the manifest. -/
theorem claim_c10_scan_skips_empty_url (env : ScanEnv) (d : String)
    (rest : List String) (out : String)
    (hq : env.remoteQuery d = some (true, out)) (he : trimS out = "") :
    scanRecords env (d :: rest) = scanRecords env rest := by
  simp [scanRecords, hq, he]

/-- C10 witness: whitespace-only output is dropped. -/
theorem claim_c10_witness :
    scanRecords ⟨fun _ => some (true, " \x0a")⟩ ["d1"]
      = scanRecords ⟨fun _ => some (true, " \x0a")⟩ [] :=
  claim_c10_scan_skips_empty_url _ "d1" [] " \x0a" rfl (by decide)

/-! ## Grep workflow (`grep_all_projects`, src/main.rs:134-152) -/

structure GrepEnv where
  grepRun : String → Option String

/-- The argument list of the `git grep` invocation (src/main.rs:137-145); the
final argument is the literal string `$(git rev-list --all)` — no shell runs,
so nothing ever expands it. -/
def grepArgs (pattern : String) : List String :=
  ["grep", pattern, "--all-match", "--break", "--heading", "--line-number",
   "--color", "$(git rev-list --all)"]

inductive GrepEvent
  | gitInvoke (dir : String) (args : List String)
  | printOut (s : String)
  deriving DecidableEq, Repr

/-- The `with_context` message `在 {:?} 执行 grep 出错`. -/
def grepErr (dir : String) : String := "在 " ++ dir ++ " 执行 grep 出错"

/-- Embedding of `grep_all_projects` (src/main.rs:134-152): per directory,
invoke the search and print its stdout; a spawn failure is fatal. -/
def grep_all_projects (env : GrepEnv) (pattern : String) :
    List String → List GrepEvent × Except String Unit
  | [] => ([], .ok ())
  | d :: ds =>
    match env.grepRun d with
    | none => ([GrepEvent.gitInvoke d (grepArgs pattern)], .error (grepErr d))
    | some out =>
      let (evs, res) := grep_all_projects env pattern ds
      (GrepEvent.gitInvoke d (grepArgs pattern) :: GrepEvent.printOut out :: evs, res)

/-- C7: every search invocation the Grep workflow makes passes exactly the
fixed flags and the single literal, unexpanded `$(git rev-list --all)`
argument; when every invocation starts, each scanned directory is searched
once with that same argument list. -/
theorem claim_c7_grep_literal_args (env : GrepEnv) (pattern : String)
    (dirs : List String) :
    (∀ d args, GrepEvent.gitInvoke d args ∈ (grep_all_projects env pattern dirs).1 →
      args = grepArgs pattern) ∧
    grepArgs pattern = ["grep", pattern, "--all-match", "--break", "--heading",
      "--line-number", "--color", "$(git rev-list --all)"] ∧
    ((∀ d ∈ dirs, (env.grepRun d).isSome) →
      (grep_all_projects env pattern dirs).1
        = dirs.flatMap (fun d => [GrepEvent.gitInvoke d (grepArgs pattern),
            GrepEvent.printOut ((env.grepRun d).getD "")])) := by
  refine ⟨?_, rfl, ?_⟩
  · induction dirs with
    | nil => intro d args h; simp [grep_all_projects] at h
    | cons d0 ds ih =>
      intro d args h
      cases hq : env.grepRun d0 with
      | none =>
        rw [grep_all_projects, hq] at h
        simp only [List.mem_singleton] at h
        cases h
        rfl
      | some out =>
        rw [grep_all_projects, hq] at h
        simp only [List.mem_cons] at h
        rcases h with h | h | h
        · cases h; rfl
        · cases h
        · exact ih d args h
  · induction dirs with
    | nil => intro _; rfl
    | cons d0 ds ih =>
      intro hall
      have hd0 := hall d0 (by simp)
      cases hq : env.grepRun d0 with
      | none => rw [hq] at hd0; cases hd0
      | some out =>
        rw [grep_all_projects, hq]
        have := ih (fun d hd => hall d (by simp [hd]))
        simp [this, hq]

/-- C7 witness: one repository, one pattern — the trace is the single
invocation with the literal argument list, followed by the printed output. -/
theorem claim_c7_witness :
    (grep_all_projects ⟨fun _ => some "hit"⟩ "TODO" ["p1"]).1
      = ["p1"].flatMap (fun d => [GrepEvent.gitInvoke d (grepArgs "TODO"),
          GrepEvent.printOut (((⟨fun _ => some "hit"⟩ : GrepEnv).grepRun d).getD "")]) :=
  (claim_c7_grep_literal_args ⟨fun _ => some "hit"⟩ "TODO" ["p1"]).2.2
    (fun _ _ => rfl)

/-! ## Pull workflow (`pull_all_projects`, src/main.rs:154-170)

Each `Command::...::status()?` / `output()?` only fails when the process
cannot be spawned — a non-zero exit status is returned and then discarded by
the source (the `_exitCode` binders below record the discard).  `PullEnv`
gives each command's spawn verdict with its exit code, and the stdout of
`git status --porcelain`; error strings stand in for the raw `io::Error`
values propagated by `?`. -/

structure PullEnv where
  statusOut : String → Option String
  addSpawn : String → Option Int
  stashSpawn : String → Option Int
  checkoutSpawn : String → Option Int
  pullSpawn : String → Option Int

inductive PullEvent
  | gitStatus (dir : String)
  | gitAdd (dir : String)
  | gitStash (dir : String)
  | gitCheckout (dir branch : String)
  | gitPull (dir remote branch : String)
  deriving DecidableEq, Repr

/-- The unconditional tail of the loop body: `git checkout master` then
`git pull origin master` (src/main.rs:167-168). -/
def pullTail (env : PullEnv) (dir : String) (acc : List PullEvent) :
    List PullEvent × Except String Unit :=
  match env.checkoutSpawn dir with
  | none =>
    (acc ++ [PullEvent.gitCheckout dir "master"],
      .error ("git checkout master 于 " ++ dir))
  | some _exitCode =>
    match env.pullSpawn dir with
    | none =>
      (acc ++ [PullEvent.gitCheckout dir "master",
        PullEvent.gitPull dir "origin" "master"],
        .error ("git pull origin master 于 " ++ dir))
    | some _exitCode =>
      (acc ++ [PullEvent.gitCheckout dir "master",
        PullEvent.gitPull dir "origin" "master"], .ok ())

/-- One iteration of `pull_all_projects` (src/main.rs:156-169): query status;
if its stdout is non-empty, `git add .` then `git stash`; then checkout and
pull unconditionally. -/
def pullOne (env : PullEnv) (dir : String) : List PullEvent × Except String Unit :=
  match env.statusOut dir with
  | none => ([PullEvent.gitStatus dir], .error ("git status 于 " ++ dir))
  | some out =>
    if out = "" then
      pullTail env dir [PullEvent.gitStatus dir]
    else
      match env.addSpawn dir with
      | none =>
        ([PullEvent.gitStatus dir, PullEvent.gitAdd dir],
          .error ("git add . 于 " ++ dir))
      | some _exitCode =>
        match env.stashSpawn dir with
        | none =>
          ([PullEvent.gitStatus dir, PullEvent.gitAdd dir, PullEvent.gitStash dir],
            .error ("git stash 于 " ++ dir))
        | some _exitCode =>
          pullTail env dir
            [PullEvent.gitStatus dir, PullEvent.gitAdd dir, PullEvent.gitStash dir]

def pull_all_projects (env : PullEnv) :
    List String → List PullEvent × Except String Unit
  | [] => ([], .ok ())
  | d :: ds =>
    let (evs, res) := pullOne env d
    match res with
    | .error e => (evs, .error e)
    | .ok () =>
      let (evs2, res2) := pull_all_projects env ds
      (evs ++ evs2, res2)

/-- C8: for a directory whose commands all start, the per-directory trace is
exactly: status; then add and stash if and only if the status output is
non-empty; then checkout `master`; then pull `origin master` — and the
batch processes each directory in order with exactly this trace. -/
theorem claim_c8_pull_sequence (env : PullEnv) (d out : String)
    (ca cs cc cp : Int)
    (hst : env.statusOut d = some out) (hadd : env.addSpawn d = some ca)
    (hstash : env.stashSpawn d = some cs) (hco : env.checkoutSpawn d = some cc)
    (hpull : env.pullSpawn d = some cp) :
    pullOne env d
      = ([PullEvent.gitStatus d]
          ++ (if out = "" then []
              else [PullEvent.gitAdd d, PullEvent.gitStash d])
          ++ [PullEvent.gitCheckout d "master",
              PullEvent.gitPull d "origin" "master"],
        .ok ()) ∧
    ∀ rest : List String, pull_all_projects env (d :: rest)
      = ((pullOne env d).1 ++ (pull_all_projects env rest).1,
          (pull_all_projects env rest).2) := by
  have h1 : pullOne env d
      = ([PullEvent.gitStatus d]
          ++ (if out = "" then []
              else [PullEvent.gitAdd d, PullEvent.gitStash d])
          ++ [PullEvent.gitCheckout d "master",
              PullEvent.gitPull d "origin" "master"], .ok ()) := by
    by_cases hout : out = ""
    · simp [pullOne, pullTail, hst, hout, hco, hpull]
    · simp [pullOne, pullTail, hst, hout, hadd, hstash, hco, hpull]
  refine ⟨h1, fun rest => ?_⟩
  simp only [pull_all_projects, h1]

/-- C8 witness: a dirty working tree (non-empty status output) stages and
stashes before the fixed checkout and pull. -/
theorem claim_c8_witness :
    pullOne ⟨fun _ => some "M x", fun _ => some 0, fun _ => some 0,
        fun _ => some 0, fun _ => some 0⟩ "p1"
      = ([PullEvent.gitStatus "p1"]
          ++ (if "M x" = "" then []
              else [PullEvent.gitAdd "p1", PullEvent.gitStash "p1"])
          ++ [PullEvent.gitCheckout "p1" "master",
              PullEvent.gitPull "p1" "origin" "master"],
        .ok ()) :=
  (claim_c8_pull_sequence ⟨fun _ => some "M x", fun _ => some 0, fun _ => some 0,
    fun _ => some 0, fun _ => some 0⟩ "p1" "M x" 0 0 0 0 rfl rfl rfl rfl rfl).1

theorem cloneRepos_append_ok {env : CloneEnv} {pre : List String}
    {evs0 : List CloneEvent} (h : cloneRepos env pre = (evs0, .ok ()))
    (l2 : List String) :
    cloneRepos env (pre ++ l2)
      = (evs0 ++ (cloneRepos env l2).1, (cloneRepos env l2).2) := by
  induction pre generalizing evs0 with
  | nil =>
    simp only [cloneRepos, Prod.mk.injEq] at h
    simp [← h.1]
  | cons p ps ih =>
    rcases hp : processRepo env p with ⟨evs1, res1⟩
    cases res1 with
    | error e =>
      rw [cloneRepos, hp] at h
      simp at h
    | ok u =>
      cases u
      rcases hrec : cloneRepos env ps with ⟨evs2, res2⟩
      rw [cloneRepos, hp, hrec] at h
      cases res2 with
      | error e => simp at h
      | ok u =>
        cases u
        simp only [Prod.mk.injEq] at h
        rw [List.cons_append, cloneRepos, hp, ih hrec]
        simp [← h.1, List.append_assoc]

theorem pullAll_append_ok {env : PullEnv} {pre : List String}
    {evs0 : List PullEvent} (h : pull_all_projects env pre = (evs0, .ok ()))
    (l2 : List String) :
    pull_all_projects env (pre ++ l2)
      = (evs0 ++ (pull_all_projects env l2).1, (pull_all_projects env l2).2) := by
  induction pre generalizing evs0 with
  | nil =>
    simp only [pull_all_projects, Prod.mk.injEq] at h
    simp [← h.1]
  | cons p ps ih =>
    rcases hp : pullOne env p with ⟨evs1, res1⟩
    cases res1 with
    | error e =>
      rw [pull_all_projects, hp] at h
      simp at h
    | ok u =>
      cases u
      rcases hrec : pull_all_projects env ps with ⟨evs2, res2⟩
      rw [pull_all_projects, hp, hrec] at h
      cases res2 with
      | error e => simp at h
      | ok u =>
        cases u
        simp only [Prod.mk.injEq] at h
        rw [List.cons_append, pull_all_projects, hp, ih hrec]
        simp [← h.1, List.append_assoc]

/-- C6: in Clone and in Pull alike, the first repository whose step
propagates an error ends the batch: after any successfully processed prefix,
a failing repository yields the whole workflow's result, and the remaining
list (universally quantified, absent from the right-hand side) is never
processed.  A failure here is the propagated error of the step — a spawn
failure, a parse failure, or a directory-creation failure; a command that
runs but exits non-zero is discarded by `.status()` and is not an error. -/
theorem claim_c6_failure_aborts_batch :
    (∀ (env : CloneEnv) (pre : List String) (evs0 evs : List CloneEvent)
      (e : String) (r : String),
      cloneRepos env pre = (evs0, .ok ()) →
      processRepo env r = (evs, .error e) →
      ∀ rest, cloneRepos env (pre ++ r :: rest) = (evs0 ++ evs, .error e)) ∧
    (∀ (env : PullEnv) (pre : List String) (evs0 evs : List PullEvent)
      (e : String) (d : String),
      pull_all_projects env pre = (evs0, .ok ()) →
      pullOne env d = (evs, .error e) →
      ∀ rest, pull_all_projects env (pre ++ d :: rest) = (evs0 ++ evs, .error e)) := by
  constructor
  · intro env pre evs0 evs e r hpre hr rest
    rw [cloneRepos_append_ok hpre, cloneRepos, hr]
  · intro env pre evs0 evs e d hpre hd rest
    rw [pullAll_append_ok hpre, pull_all_projects, hd]

/-- C6 witness: with one already-cloned repository processed first, a clone
spawn failure on the second repository aborts before the third; a status
spawn failure aborts a pull batch the same way. -/
theorem claim_c6_witness :
    cloneRepos ⟨fun q => q = "a", fun _ => true, fun _ _ => none⟩
        ["git@h:a.git", "git@h:b.git", "git@h:c.git"]
      = ([CloneEvent.skipNotice "a", CloneEvent.gitClone "git@h:b.git" "b"],
          .error (cloneErr "git@h:b.git")) ∧
    pull_all_projects ⟨fun _ => none, fun _ => some 0, fun _ => some 0,
        fun _ => some 0, fun _ => some 0⟩ ["p1", "p2"]
      = ([PullEvent.gitStatus "p1"], .error ("git status 于 " ++ "p1")) :=
  ⟨claim_c6_failure_aborts_batch.1
      ⟨fun q => q = "a", fun _ => true, fun _ _ => none⟩
      ["git@h:a.git"] [CloneEvent.skipNotice "a"]
      [CloneEvent.gitClone "git@h:b.git" "b"] (cloneErr "git@h:b.git")
      "git@h:b.git" rfl rfl ["git@h:c.git"],
   claim_c6_failure_aborts_batch.2
      ⟨fun _ => none, fun _ => some 0, fun _ => some 0, fun _ => some 0, fun _ => some 0⟩
      [] [] [PullEvent.gitStatus "p1"] ("git status 于 " ++ "p1") "p1"
      rfl rfl ["p2"]⟩
